import Mathlib

/-!
Verification of the status-report parser, correlator and ranker of
mysql-admin-web (source: src/pages/instance/[identifier]/index.tsx).

The embedding works at the level of JavaScript semantics:

* strings are handled as `List Char` (the inputs are ASCII, so JS UTF-16
  code-unit indices coincide with character indices);
* the JS number `NaN`, which `parseInt` produces on unparsable input, is
  modelled as `none : Option Int`; an actual integer result is `some n`;
* the mutable "current transaction" object of the source, which is shared
  by reference between the local variable and the output dictionary, is
  modelled by an arena: `ParseState.fin` holds the already-replaced
  accumulator objects, `ParseState.cur` is the live one (its arena index is
  `fin.length`), and the dictionary maps thread ids to arena indices, so
  two dictionary keys alias the same JS object iff they map to the same
  arena index;
* the JS exception raised when the section marker is absent (`findIndex`
  returns `-1`, `splitInnoDbStatus[-1]` is `undefined`, and
  `undefined.startsWith` throws a `TypeError`) is modelled by
  `Except.error ()`;
* `Array.prototype.sort` (ES2019+ requires a stable sort) is modelled by
  the stable `List.mergeSort`, with the comparator's `NaN` results mapped
  to `0` as prescribed by the `SortCompare` operation of the ECMAScript
  standard.
-/

namespace MysqlAdminWeb

/-! ### JavaScript string primitives -/

/-- Model of `String.prototype.split(sep)` for a one-character separator:
splits at every occurrence of `sep`, keeping empty pieces, and returns
`[[]]` on the empty string, exactly as in JS. -/
def splitChar (sep : Char) : List Char → List (List Char)
  | [] => [[]]
  | c :: rest =>
    if c = sep then [] :: splitChar sep rest
    else
      match splitChar sep rest with
      | [] => [[c]]
      | h :: t => (c :: h) :: t

/-- Model of `String.prototype.includes(sub)`: `sub` occurs contiguously in
`cs`. -/
def includesSub (sub : List Char) : List Char → Bool
  | [] => sub.isEmpty
  | c :: rest => sub.isPrefixOf (c :: rest) || includesSub sub rest

/-- First index of the substring `sub` in `cs`, if any. -/
def idxOfSub (sub : List Char) : List Char → Option Nat
  | [] => if sub.isEmpty then some 0 else none
  | c :: rest =>
    if sub.isPrefixOf (c :: rest) then some 0
    else (idxOfSub sub rest).map (· + 1)

/-- Model of `String.prototype.indexOf(sub)`: the first index of `sub`, or
`-1` when `sub` does not occur. -/
def jsIndexOf (cs sub : List Char) : Int :=
  match idxOfSub sub cs with
  | some n => (n : Int)
  | none => -1

/-- Digit run parser used by `jsParseInt`: value of the maximal leading run
of decimal digits, or `none` when there is none. -/
def leadingDigits (cs : List Char) : Option Nat :=
  match cs.takeWhile Char.isDigit with
  | [] => none
  | ds => some (ds.foldl (fun a c => a * 10 + (c.toNat - 48)) 0)

/-- Model of JavaScript `parseInt(s)` (radix 10): skip leading whitespace,
an optional sign, then read a maximal run of decimal digits; `NaN` (no
digits) is `none`.  The legacy `0x` hexadecimal prefix of `parseInt` is not
modelled; no string in this development starts with it. -/
def jsParseInt (cs : List Char) : Option Int :=
  let cs := cs.dropWhile (fun c => c = ' ' || c = '\t' || c = '\n' || c = '\r')
  match cs with
  | '-' :: rest => (leadingDigits rest).map (fun n => -(n : Int))
  | '+' :: rest => (leadingDigits rest).map (fun n => (n : Int))
  | rest => (leadingDigits rest).map (fun n => (n : Int))

/-! ### Data model of the parser -/

/-- The source's `TransactionInfo`: `activeTime : number` (where `none`
models `NaN`) and `info : string[]`, the raw detail lines. -/
structure TransactionInfo where
  activeTime : Option Int
  info : List (List Char)
deriving Repr, DecidableEq

/-- The literal section marker `"LIST OF TRANSACTIONS FOR EACH SESSION:"`. -/
def sectionMarker : List Char := ("LIST OF TRANSACTIONS FOR EACH SESSION:").toList

/-- The transaction-start marker `"---TRANSACTION"`. -/
def transMarker : List Char := ("---TRANSACTION").toList

/-- The thread/session-id marker `"MariaDB thread id"`. -/
def idMarker : List Char := ("MariaDB thread id").toList

/-- The terminator marker `"--------"` (eight dashes). -/
def termMarker : List Char := ("--------").toList

/-- State of the parsing loop.  JS object identity of the shared mutable
accumulator is made explicit as an arena: `fin` are the accumulator objects
already replaced by a later `---TRANSACTION` line (arena indices
`0, …, fin.length - 1`), `cur` is the live accumulator (arena index
`fin.length`), and `dict` is the output object `transactions`, mapping each
thread id to the arena index of the object stored under it.  New `dict`
entries are prepended, and `List.lookup` takes the first match, which gives
the JS last-write-wins semantics of repeated key assignment.  A key is
`none` when `parseInt` produced `NaN` (JS property key `"NaN"`). -/
structure ParseState where
  fin : List TransactionInfo
  cur : TransactionInfo
  dict : List (Option Int × Nat)
deriving Repr, DecidableEq

deriving instance DecidableEq for Except

/-- Extraction of `activeTime` from a transaction-start line (source lines
83-85): `const index = line.indexOf(', ACTIVE');` then
`parseInt(line.slice(index + 8))`.  When `', ACTIVE'` is absent, `index`
is `-1` and the slice starts at character 7; `parseInt` then yields `NaN`
(`none`) unless digits happen to follow. -/
def parseActiveTime (line : List Char) : Option Int :=
  jsParseInt (line.drop (jsIndexOf line ((", ACTIVE").toList) + 8).toNat)

/-- Extraction of the thread id from an id line (source lines 94-95):
`parseInt(line.split(' ')[3])`; a missing 4th token is `undefined`, and
`parseInt(undefined)` is `NaN` (`none`). -/
def jsThreadId (line : List Char) : Option Int :=
  match (splitChar ' ' line)[3]? with
  | some w => jsParseInt w
  | none => none

/-- One iteration of the parsing loop body (source lines 82-100), for a
non-terminator line: a `---TRANSACTION` line replaces the current
accumulator by a fresh one (the old object moves to the arena); a
`MariaDB thread id` line stores the current accumulator's arena index in
the dictionary; finally the line is pushed onto the current accumulator's
`info` in every case. -/
def step (s : ParseState) (line : List Char) : ParseState :=
  let s1 : ParseState :=
    if transMarker.isPrefixOf line then
      { fin := s.fin ++ [s.cur],
        cur := { activeTime := parseActiveTime line, info := [] },
        dict := s.dict }
    else s
  let s2 : ParseState :=
    if idMarker.isPrefixOf line then
      { s1 with dict := (jsThreadId line, s1.fin.length) :: s1.dict }
    else s1
  { s2 with cur := { s2.cur with info := s2.cur.info ++ [line] } }

/-- The parsing loop (source lines 76-101): process lines in order, stopping
(exclusively) at the first line starting with `"--------"`. -/
def runLines (s : ParseState) : List (List Char) → ParseState
  | [] => s
  | line :: rest =>
    if termMarker.isPrefixOf line then s
    else runLines (step s line) rest

/-- Initial accumulator (source lines 71-74): `activeTime: -1, info: []`. -/
def initState : ParseState :=
  { fin := [], cur := { activeTime := some (-1), info := [] }, dict := [] }

/-- The source's `parseInnoDbStatus` (lines 62-104).  The input is split on
newlines and scanned from the first line containing the section marker.
When no line contains the marker, `findIndex` returns `-1` and the first
loop iteration reads `splitInnoDbStatus[-1]`, which is `undefined`, so
`undefined.startsWith('--------')` throws a `TypeError`; that exception is
modelled as `Except.error ()`. -/
def parseInnoDbStatus (innoDbStatus : String) : Except Unit ParseState :=
  match (splitChar '\n' innoDbStatus.toList).findIdx?
      (fun line => includesSub sectionMarker line) with
  | none => .error ()
  | some i => .ok (runLines initState ((splitChar '\n' innoDbStatus.toList).drop i))

/-- Dereference an arena index to the accumulator object it denotes at
state `s` (the default is never reached: `dict` indices are `≤ fin.length`). -/
def deref (s : ParseState) (j : Nat) : TransactionInfo :=
  (s.fin ++ [s.cur]).getD j { activeTime := some (-1), info := [] }

/-- The association list the caller observes: each dictionary entry with its
arena index dereferenced to the final object value.  `List.lookup` on it is
the JS property read `transactions[id]`. -/
def finalize (s : ParseState) : List (Option Int × TransactionInfo) :=
  s.dict.map (fun kv => (kv.1, deref s kv.2))

/-- The returned mapping of `parseInnoDbStatus`, as an association list
(empty when the parse throws). -/
def parsedMapping (text : String) : List (Option Int × TransactionInfo) :=
  match parseInnoDbStatus text with
  | .error _ => []
  | .ok st => finalize st

/-- Read a single key of the parser's result, `none` when the parse throws
or the key is absent. -/
def lookupTx (text : String) (k : Option Int) : Option TransactionInfo :=
  List.lookup k (parsedMapping text)

/-- Arena index stored under key `k`, exposing JS object identity: two keys
hold the same object iff `lookupIdx` agrees on them. -/
def lookupIdx (text : String) (k : Option Int) : Option Nat :=
  match parseInnoDbStatus text with
  | .error _ => none
  | .ok st => List.lookup k st.dict


/-! ### Concrete reports used in the scenarios and counterexamples -/

/-- Scenario A report from the specification. -/
def scenarioA : String :=
  "LIST OF TRANSACTIONS FOR EACH SESSION:\n---TRANSACTION 1, ACTIVE 5 sec\nMariaDB thread id 7, foo\n--------\n"

/-- Scenario B report: Scenario A with the `MariaDB thread id` line removed. -/
def scenarioB : String :=
  "LIST OF TRANSACTIONS FOR EACH SESSION:\n---TRANSACTION 1, ACTIVE 5 sec\n--------\n"

/-- Scenario A report with a second thread-id line inside the same block. -/
def twoIdReport : String :=
  "LIST OF TRANSACTIONS FOR EACH SESSION:\n---TRANSACTION 1, ACTIVE 5 sec\nMariaDB thread id 7, foo\nMariaDB thread id 8, bar\n--------\n"

/-- The transaction-start line of Scenario A. -/
def transLineA : List Char := ("---TRANSACTION 1, ACTIVE 5 sec").toList

/-- The thread-id line of Scenario A. -/
def idLineA : List Char := ("MariaDB thread id 7, foo").toList

/-! ### Helper lemmas about the parsing loop -/

/-- The dictionary component of one loop iteration: only an id line touches
it, prepending the current arena index under the parsed thread id. -/
theorem step_dict (s : ParseState) (line : List Char) :
    (step s line).dict =
      if idMarker.isPrefixOf line then
        (jsThreadId line,
          (if transMarker.isPrefixOf line then s.fin ++ [s.cur] else s.fin).length) :: s.dict
      else s.dict := by
  by_cases h1 : transMarker.isPrefixOf line <;>
    by_cases h2 : idMarker.isPrefixOf line <;>
      simp [step, h1, h2]

/-- The arena component of one loop iteration: only a transaction-start line
touches it, sealing the current accumulator. -/
theorem step_fin (s : ParseState) (line : List Char) :
    (step s line).fin =
      if transMarker.isPrefixOf line then s.fin ++ [s.cur] else s.fin := by
  by_cases h1 : transMarker.isPrefixOf line <;>
    by_cases h2 : idMarker.isPrefixOf line <;>
      simp [step, h1, h2]

/-- The current accumulator after one loop iteration that is not a
transaction-start line: same `activeTime`, the line appended to `info`. -/
theorem step_cur_of_not_trans (s : ParseState) (line : List Char)
    (h1 : transMarker.isPrefixOf line = false) :
    (step s line).cur =
      { activeTime := s.cur.activeTime, info := s.cur.info ++ [line] } := by
  by_cases h2 : idMarker.isPrefixOf line <;> simp [step, h1, h2]

/-- Every dictionary entry produced by the loop either was already there or
comes from an id line among the processed lines. -/
theorem runLines_dict_entry (lines : List (List Char)) :
    ∀ (s : ParseState) (k : Option Int) (j : Nat),
      (k, j) ∈ (runLines s lines).dict →
      (k, j) ∈ s.dict ∨
        ∃ line ∈ lines, idMarker.isPrefixOf line = true ∧ jsThreadId line = k := by
  induction lines with
  | nil => intro s k j h; exact Or.inl h
  | cons line rest ih =>
    intro s k j h
    rw [runLines] at h
    by_cases hterm : termMarker.isPrefixOf line
    · rw [if_pos hterm] at h
      exact Or.inl h
    · rw [if_neg hterm] at h
      rcases ih (step s line) k j h with hmem | ⟨l, hl, hid, hk⟩
      · rw [step_dict] at hmem
        by_cases hid : idMarker.isPrefixOf line
        · rw [if_pos hid] at hmem
          rcases List.mem_cons.1 hmem with heq | hmem
          · refine Or.inr ⟨line, List.mem_cons_self _ _, hid, ?_⟩
            exact (Prod.mk.injEq _ _ _ _ ▸ heq).1.symm
          · exact Or.inl hmem
        · rw [if_neg hid] at hmem
          exact Or.inl hmem
      · exact Or.inr ⟨l, List.mem_cons_of_mem _ hl, hid, hk⟩

/-- If none of the processed lines is an id line, the dictionary is
untouched. -/
theorem runLines_dict_of_no_id (lines : List (List Char)) :
    ∀ (s : ParseState),
      (∀ line ∈ lines, idMarker.isPrefixOf line = false) →
      (runLines s lines).dict = s.dict := by
  induction lines with
  | nil => intro s _; rfl
  | cons line rest ih =>
    intro s h
    rw [runLines]
    by_cases hterm : termMarker.isPrefixOf line
    · rw [if_pos hterm]
    · rw [if_neg hterm, ih (step s line) (fun l hl => h l (List.mem_cons_of_mem _ hl)),
        step_dict, if_neg]
      simp [h line (List.mem_cons_self _ _)]

/-! ### C1: missing section marker -/

/-- C1: the claim says that on any input without the section marker the
parser returns an empty mapping and never fails.  The code instead throws:
`findIndex` yields `-1`, the loop body reads `splitInnoDbStatus[-1]`
(`undefined`) and `undefined.startsWith('--------')` raises a `TypeError`.
This theorem evaluates the embedded code on every marker-free input: the
result is the modelled exception, not an empty mapping. -/
theorem parse_throws_without_marker (text : String)
    (h : ∀ line ∈ splitChar '\n' text.toList, includesSub sectionMarker line = false) :
    parseInnoDbStatus text = .error () := by
  unfold parseInnoDbStatus
  rw [List.findIdx?_eq_none_iff.2 h]

/-- Witness for `parse_throws_without_marker` at the failing input
`"hello"`. -/
theorem parse_throws_without_marker_witness :
    parseInnoDbStatus ("hello") = .error () :=
  parse_throws_without_marker ("hello") (by decide)

/-- A boolean prefix test yields an explicit decomposition. -/
theorem isPrefixOf_exists {l1 l2 : List Char} (h : l1.isPrefixOf l2 = true) :
    ∃ t, l1 ++ t = l2 := by
  induction l1 generalizing l2 with
  | nil => exact ⟨l2, rfl⟩
  | cons a as ih =>
    match l2 with
    | [] => exact absurd h (by simp)
    | b :: bs =>
      have h' : (a == b && as.isPrefixOf bs) = true := h
      obtain ⟨hab, hrest⟩ := Bool.and_eq_true _ _ ▸ h'
      obtain ⟨t, ht⟩ := ih hrest
      exact ⟨t, by rw [List.cons_append, ht, eq_of_beq hab]⟩

/-- C3 counterexample: on a report whose single transaction block contains
two thread-id lines (ids 7 and 8), both keys of the output mapping hold the
same arena index 1, i.e. they alias one and the same `TransactionInfo`
object — two distinct keys refer to the same `TransactionDetail`. -/
theorem tx_owner_unique_ce :
    lookupIdx twoIdReport (some 7) = some 1 ∧
    lookupIdx twoIdReport (some 8) = some 1 ∧
    (some (7 : Int)) ≠ (some (8 : Int)) := by
  refine ⟨by decide, by decide, by decide⟩

/-- C3 amended: every entry of the output mapping is put there by a
thread-id line of the input whose parsed thread id is the entry's key (so a
block without an id line is absent from the mapping), but a single
`TransactionDetail` can be shared by several distinct keys when one block
contains several id lines. -/
theorem dict_entry_from_id_line (text : String) (st : ParseState)
    (hok : parseInnoDbStatus text = .ok st) :
    ∀ (k : Option Int) (j : Nat), (k, j) ∈ st.dict →
      ∃ line ∈ splitChar '\n' text.toList,
        idMarker.isPrefixOf line = true ∧ jsThreadId line = k := by
  intro k j hmem
  unfold parseInnoDbStatus at hok
  rcases hfind : (splitChar '\n' text.toList).findIdx?
      (fun line => includesSub sectionMarker line) with _ | i
  · rw [hfind] at hok; exact absurd hok (by simp)
  · rw [hfind] at hok
    have hst : st = runLines initState ((splitChar '\n' text.toList).drop i) := by
      cases hok; rfl
    subst hst
    rcases runLines_dict_entry _ initState k j hmem with hin | ⟨line, hl, hid, hk⟩
    · exact absurd hin (by simp [initState])
    · exact ⟨line, List.mem_of_mem_drop hl, hid, hk⟩

/-- Witness for `dict_entry_from_id_line` on `twoIdReport` and its entry
for key 7. -/
theorem dict_entry_from_id_line_witness :
    ∃ line ∈ splitChar '\n' twoIdReport.toList,
      idMarker.isPrefixOf line = true ∧ jsThreadId line = some 7 :=
  dict_entry_from_id_line twoIdReport
    (runLines initState ((splitChar '\n' twoIdReport.toList).drop 0))
    (by decide) (some 7) 1 (by decide)

/-! ### C7: Scenario A -/

/-- C7 counterexample: in Scenario A the entry for key 7 holds exactly two
detail lines — the transaction-start line and the id line — not the three
lines from the section-marker line on: the marker line is accumulated into
the initial accumulator, which the `---TRANSACTION` line discards. -/
theorem scenarioA_ce :
    (lookupTx scenarioA (some 7)).map TransactionInfo.info =
      some [transLineA, idLineA] ∧
    (lookupTx scenarioA (some 7)).map TransactionInfo.info ≠
      some [sectionMarker, transLineA, idLineA] ∧
    (lookupTx scenarioA (some 7)).map (fun t => t.info.length) ≠ some 3 := by
  refine ⟨by decide, by decide, by decide⟩

/-- C7 amended: Scenario A's report parses to exactly the mapping with the
single key 7, `activeSeconds` 5, and the two detail lines from the
transaction-start line through the thread-id line. -/
theorem scenarioA_mapping :
    parsedMapping scenarioA =
      [(some 7, { activeTime := some 5, info := [transLineA, idLineA] })] := by
  decide

/-- Continuation-line predicate: neither a transaction-start line nor a
terminator line.  These are exactly the lines that keep flowing into the
same accumulator object. -/
def contLine (line : List Char) : Bool :=
  !(transMarker.isPrefixOf line) && !(termMarker.isPrefixOf line)

/-- A transaction-start line begins `---T`, so it is not a terminator
line (eight dashes). -/
theorem trans_line_not_term {line : List Char}
    (h : transMarker.isPrefixOf line = true) :
    termMarker.isPrefixOf line = false := by
  obtain ⟨t, rfl⟩ := isPrefixOf_exists h
  rfl

/-- A transaction-start line begins with a dash, so it is not a thread-id
line. -/
theorem trans_line_not_id {line : List Char}
    (h : transMarker.isPrefixOf line = true) :
    idMarker.isPrefixOf line = false := by
  obtain ⟨t, rfl⟩ := isPrefixOf_exists h
  rfl

/-- No dictionary entry for an arena index strictly below the current one
is ever created: id lines only bind the current index, which never
shrinks. -/
theorem runLines_dict_below (rest : List (List Char)) :
    ∀ (t : ParseState) (j : Nat), j < t.fin.length →
      ∀ (k : Option Int), (k, j) ∈ (runLines t rest).dict → (k, j) ∈ t.dict := by
  induction rest with
  | nil => intro t j _ k h; exact h
  | cons l rest ih =>
    intro t j hj k h
    rw [runLines] at h
    by_cases hterm : termMarker.isPrefixOf l
    · rw [if_pos hterm] at h; exact h
    · rw [if_neg hterm] at h
      have hfin : t.fin.length ≤ (step t l).fin.length := by
        rw [step_fin]
        by_cases h1 : transMarker.isPrefixOf l <;> simp [h1]
      have h2 := ih (step t l) j (Nat.lt_of_lt_of_le hj hfin) k h
      rw [step_dict] at h2
      by_cases hid : idMarker.isPrefixOf l
      · rw [if_pos hid] at h2
        rcases List.mem_cons.1 h2 with heq | h2
        · have hj2 : j =
              (if transMarker.isPrefixOf l then t.fin ++ [t.cur] else t.fin).length :=
            (Prod.mk.injEq _ _ _ _ ▸ heq).2
          by_cases h1 : transMarker.isPrefixOf l
          · rw [if_pos h1] at hj2; simp at hj2; omega
          · rw [if_neg h1] at hj2; omega
        · exact h2
      · rw [if_neg hid] at h2; exact h2

/-- If the continuation lines after the current accumulator's creation
contain no thread-id line, no new dictionary entry for that accumulator's
arena index appears. -/
theorem runLines_block_no_id (rest : List (List Char)) :
    ∀ (t : ParseState),
      (∀ l ∈ rest.takeWhile contLine, idMarker.isPrefixOf l = false) →
      ∀ (k : Option Int), (k, t.fin.length) ∈ (runLines t rest).dict →
        (k, t.fin.length) ∈ t.dict := by
  induction rest with
  | nil => intro t _ k h; exact h
  | cons l rest ih =>
    intro t hno k h
    rw [runLines] at h
    by_cases hterm : termMarker.isPrefixOf l
    · rw [if_pos hterm] at h; exact h
    · rw [if_neg hterm] at h
      by_cases h1 : transMarker.isPrefixOf l
      · have hlt : t.fin.length < (step t l).fin.length := by
          rw [step_fin, if_pos h1]; simp
        have h2 := runLines_dict_below rest (step t l) t.fin.length hlt k h
        rw [step_dict, if_neg (by simp [trans_line_not_id h1])] at h2
        exact h2
      · have hcont : contLine l = true := by simp [contLine, h1, hterm]
        have hlid : idMarker.isPrefixOf l = false := by
          refine hno l ?_
          rw [List.takeWhile_cons, if_pos hcont]
          exact List.mem_cons_self _ _
        have hfl : (step t l).fin.length = t.fin.length := by
          rw [step_fin, if_neg (by simp [h1])]
        have hno' : ∀ l' ∈ rest.takeWhile contLine, idMarker.isPrefixOf l' = false := by
          intro l' hl'
          refine hno l' ?_
          rw [List.takeWhile_cons, if_pos hcont]
          exact List.mem_cons_of_mem _ hl'
        rw [← hfl] at h
        have h2 := ih (step t l) hno' k h
        rw [hfl] at h2
        rw [step_dict, if_neg (by simp [hlid])] at h2
        exact h2

/-- A parse state whose dictionary is pre-seeded, used to exercise the
per-block theorem's conclusion on a satisfiable premise. -/
def seededState : ParseState :=
  { fin := [], cur := { activeTime := some (-1), info := [] },
    dict := [(some 7, 1)] }

/-! ### C8: unassignable blocks are dropped -/

/-- C8: a transaction block in which no thread-id line appears before the
next transaction-start line or the terminator contributes no entry and
raises nothing.  First part (per block, in any report): if a
transaction-start line opens a block (arena index `(step s line).fin.length`)
and none of the continuation lines up to the next transaction-start or
terminator line is an id line, then every dictionary entry for that index
after the whole rest of the scan already existed before the block — the
block contributed none.  Second part: on any successfully parsed report
none of whose lines is an id line, the output mapping is empty.  Third
part: Scenario B (Scenario A minus the id line) parses without error to
the empty mapping. -/
theorem no_id_line_no_entry :
    (∀ (s : ParseState) (line : List Char) (rest : List (List Char)),
        transMarker.isPrefixOf line = true →
        (∀ l ∈ rest.takeWhile contLine, idMarker.isPrefixOf l = false) →
        ∀ (k : Option Int),
          (k, (step s line).fin.length) ∈ (runLines s (line :: rest)).dict →
          (k, (step s line).fin.length) ∈ s.dict) ∧
    (∀ (text : String) (st : ParseState), parseInnoDbStatus text = .ok st →
      (∀ line ∈ splitChar '\n' text.toList, idMarker.isPrefixOf line = false) →
      st.dict = [] ∧ parsedMapping text = []) ∧
    (parseInnoDbStatus scenarioB =
        .ok (runLines initState ((splitChar '\n' scenarioB.toList).drop 0)) ∧
      parsedMapping scenarioB = []) := by
  refine ⟨?_, ?_, ⟨by decide, by decide⟩⟩
  · intro s line rest hstart hno k h
    rw [runLines, if_neg (by simp [trans_line_not_term hstart])] at h
    have h2 := runLines_block_no_id rest (step s line) hno k h
    rw [step_dict, if_neg (by simp [trans_line_not_id hstart])] at h2
    exact h2
  · intro text st hok hno
    have hok' := hok
    unfold parseInnoDbStatus at hok'
    split at hok'
    · exact absurd hok' (by simp)
    · rename_i i hfind
      have hst : st = runLines initState ((splitChar '\n' text.toList).drop i) :=
        (Except.ok.inj hok').symm
      have hdict : st.dict = [] := by
        rw [hst, runLines_dict_of_no_id _ initState
          (fun l hl => hno l (List.mem_of_mem_drop hl))]
        rfl
      refine ⟨hdict, ?_⟩
      simp only [parsedMapping, hok, finalize, hdict, List.map_nil]

/-- Witness for `no_id_line_no_entry`: the per-block part on a seeded state
(where the entry for the block's index genuinely predates the block) and
the report-level part at Scenario B. -/
theorem no_id_line_no_entry_witness :
    (some 7, (step seededState transLineA).fin.length) ∈ seededState.dict ∧
    ((runLines initState ((splitChar '\n' scenarioB.toList).drop 0)).dict = [] ∧
      parsedMapping scenarioB = []) :=
  ⟨no_id_line_no_entry.1 seededState transLineA [("continuation").toList]
      (by decide) (by decide) (some 7) (by decide),
   no_id_line_no_entry.2.1 scenarioB
     (runLines initState ((splitChar '\n' scenarioB.toList).drop 0))
     (by decide) (by decide)⟩

/-! ### C9: lines after a finalizing id line keep accumulating -/

/-- A thread-id line starts with `M`, so it is not a transaction-start
line. -/
theorem id_line_not_trans {line : List Char}
    (h : idMarker.isPrefixOf line = true) :
    transMarker.isPrefixOf line = false := by
  cases line with
  | nil => exact absurd h (by decide)
  | cons c cs =>
    have h' : ('M' == c && (("ariaDB thread id").toList).isPrefixOf cs) = true := h
    have hc : c = 'M' := (eq_of_beq ((Bool.and_eq_true _ _ ▸ h').1)).symm
    subst hc
    rfl

/-- A thread-id line starts with `M`, so it is not a terminator line. -/
theorem id_line_not_term {line : List Char}
    (h : idMarker.isPrefixOf line = true) :
    termMarker.isPrefixOf line = false := by
  cases line with
  | nil => exact absurd h (by decide)
  | cons c cs =>
    have h' : ('M' == c && (("ariaDB thread id").toList).isPrefixOf cs) = true := h
    have hc : c = 'M' := (eq_of_beq ((Bool.and_eq_true _ _ ▸ h').1)).symm
    subst hc
    rfl

/-- The arena only ever grows at its end during the loop. -/
theorem runLines_fin_grows (lines : List (List Char)) :
    ∀ s : ParseState, ∃ t, (runLines s lines).fin = s.fin ++ t := by
  induction lines with
  | nil => intro s; exact ⟨[], (List.append_nil _).symm⟩
  | cons line rest ih =>
    intro s
    rw [runLines]
    by_cases hterm : termMarker.isPrefixOf line
    · rw [if_pos hterm]; exact ⟨[], (List.append_nil _).symm⟩
    · rw [if_neg hterm]
      obtain ⟨t, ht⟩ := ih (step s line)
      by_cases h1 : transMarker.isPrefixOf line
      · exact ⟨s.cur :: t, by rw [ht, step_fin, if_pos h1, List.append_assoc,
          List.singleton_append]⟩
      · exact ⟨t, by rw [ht, step_fin, if_neg h1]⟩

/-- Arena entries below the current index never change again. -/
theorem runLines_deref_old (lines : List (List Char)) (s : ParseState)
    (j : Nat) (hj : j < s.fin.length) :
    deref (runLines s lines) j =
      s.fin.getD j { activeTime := some (-1), info := [] } := by
  obtain ⟨t, ht⟩ := runLines_fin_grows lines s
  unfold deref
  rw [ht, List.append_assoc]
  exact List.getD_append _ _ _ _ hj

/-- Core of C9: at any state, the object at the current arena index ends up
holding the current `activeTime` and the current lines followed by exactly
the continuation lines up to (excluding) the next transaction-start or
terminator line, in order. -/
theorem runLines_deref_cur (rest : List (List Char)) :
    ∀ s : ParseState,
      deref (runLines s rest) s.fin.length =
        { activeTime := s.cur.activeTime,
          info := s.cur.info ++ rest.takeWhile contLine } := by
  induction rest with
  | nil =>
    intro s
    show deref s s.fin.length = _
    unfold deref
    rw [List.getD_append_right _ _ _ _ (Nat.le_refl _), Nat.sub_self,
      List.takeWhile_nil, List.append_nil]
    rfl
  | cons line rest ih =>
    intro s
    rw [runLines, List.takeWhile_cons]
    by_cases hterm : termMarker.isPrefixOf line
    · have hc : contLine line = false := by simp [contLine, hterm]
      rw [if_pos hterm, hc, if_neg (by simp), List.append_nil]
      unfold deref
      rw [List.getD_append_right _ _ _ _ (Nat.le_refl _), Nat.sub_self]
      rfl
    · rw [if_neg hterm]
      by_cases h1 : transMarker.isPrefixOf line
      · have hc : contLine line = false := by simp [contLine, h1]
        rw [hc, if_neg (by simp), List.append_nil]
        have hlen : s.fin.length < (step s line).fin.length := by
          rw [step_fin, if_pos h1]; simp
        rw [runLines_deref_old rest (step s line) s.fin.length hlen,
          step_fin, if_pos h1,
          List.getD_append_right _ _ _ _ (Nat.le_refl _), Nat.sub_self]
        rfl
      · have hc : contLine line = true := by simp [contLine, h1, hterm]
        rw [hc, if_pos rfl]
        have hfl : s.fin.length = (step s line).fin.length := by
          rw [step_fin, if_neg h1]
        rw [hfl, ih (step s line), step_cur_of_not_trans s line (by simp [h1])]
        simp [List.append_assoc]

/-- C9: a thread-id line finalizes the current accumulator (arena index
`s.fin.length`) into the mapping under its parsed thread id, and every
subsequent line up to (but excluding) the next transaction-start line or
terminator line is appended, in file order, to that same object, so those
later lines are visible through the finalized mapping entry. -/
theorem id_line_entry_accumulates (s : ParseState) (line : List Char)
    (rest : List (List Char)) (hid : idMarker.isPrefixOf line = true) :
    runLines s (line :: rest) = runLines (step s line) rest ∧
    List.lookup (jsThreadId line) (step s line).dict = some s.fin.length ∧
    deref (runLines (step s line) rest) s.fin.length =
      { activeTime := s.cur.activeTime,
        info := (s.cur.info ++ [line]) ++ rest.takeWhile contLine } := by
  refine ⟨?_, ?_, ?_⟩
  · rw [runLines, if_neg (by simp [id_line_not_term hid])]
  · rw [step_dict, if_pos hid, if_neg (by simp [id_line_not_trans hid])]
    simp [List.lookup]
  · have hfl : s.fin.length = (step s line).fin.length := by
      rw [step_fin, if_neg (by simp [id_line_not_trans hid])]
    rw [hfl, runLines_deref_cur rest (step s line),
      step_cur_of_not_trans s line (id_line_not_trans hid)]

/-- Witness for `id_line_entry_accumulates`: the id line of Scenario A
processed from the initial state, followed by one continuation line. -/
theorem id_line_entry_accumulates_witness :
    runLines initState (idLineA :: [("foo bar").toList]) =
      runLines (step initState idLineA) [("foo bar").toList] ∧
    List.lookup (jsThreadId idLineA) (step initState idLineA).dict =
      some initState.fin.length ∧
    deref (runLines (step initState idLineA) [("foo bar").toList])
        initState.fin.length =
      { activeTime := initState.cur.activeTime,
        info := (initState.cur.info ++ [idLineA]) ++
          ([("foo bar").toList]).takeWhile contLine } :=
  id_line_entry_accumulates initState idLineA [("foo bar").toList] (by decide)

/-! ### Correlator and Ranker -/

/-- The source's `Process` row of `SHOW PROCESSLIST` (nine fields).
`Progress` is numeric in the source; like `Time` and `Id` it is only
carried through the core, never computed with, so `Int` stands in for the
JS number. -/
structure Process where
  Id : Int
  User : String
  Host : String
  db : Option String
  Command : String
  Time : Int
  State : String
  Info : String
  Progress : Int
deriving Repr, DecidableEq

/-- The source's `ProcessWithTransaction`: a `Process` plus the attached
transaction (JS `TransactionInfo | null`). -/
structure ProcessWithTransaction extends Process where
  transaction : Option TransactionInfo
deriving Repr, DecidableEq

/-- The Correlator (source lines 131-138): map over the process list in
order, attaching `innoDbStatus[process.Id] || null`; a `TransactionInfo`
object is always truthy, so `|| null` only turns the absent case into
`null` (`none`). -/
def correlate (processList : List Process)
    (innoDbStatus : List (Option Int × TransactionInfo)) :
    List ProcessWithTransaction :=
  processList.map (fun p =>
    { toProcess := p, transaction := List.lookup (some p.Id) innoDbStatus })

/-- The Ranker's comparator (source lines 141-152), returning the JS number
of the callback with `NaN` replaced by `0`, exactly as the ECMAScript
`SortCompare` operation does with a comparator result. -/
def jsCompare (a b : ProcessWithTransaction) : Int :=
  match a.transaction, b.transaction with
  | some _, none => -1
  | none, some _ => 1
  | some ta, some tb =>
    match tb.activeTime, ta.activeTime with
    | some bt, some at2 => bt - at2
    | _, _ => 0
  | none, none => b.Time - a.Time

/-- The comparator as a boolean "may come first" relation: non-positive
comparator value. -/
def jsLe (a b : ProcessWithTransaction) : Bool := jsCompare a b ≤ 0

/-- Fuel-based counterpart of `List.merge` (see `mergeF_eq_merge`): the
fuel makes it structurally recursive, so concrete runs reduce inside the
kernel. -/
def mergeF (le : α → α → Bool) : Nat → List α → List α → List α
  | 0, xs, ys => xs ++ ys
  | _ + 1, [], ys => ys
  | _ + 1, x :: xs, [] => x :: xs
  | n + 1, x :: xs, y :: ys =>
    if le x y then x :: mergeF le n xs (y :: ys)
    else y :: mergeF le n (x :: xs) ys

/-- Fuel-based counterpart of the stable `List.mergeSort` (see
`msF_eq_mergeSort`), splitting exactly like `List.splitInTwo`. -/
def msF (le : α → α → Bool) : Nat → List α → List α
  | 0, l => l
  | n + 1, l =>
    if l.length ≤ 1 then l
    else
      mergeF le l.length
        (msF le n (l.take ((l.length + 1) / 2)))
        (msF le n (l.drop ((l.length + 1) / 2)))

/-- The Ranker (source lines 141-152): `Array.prototype.sort` with the
comparator above.  ES2019+ requires the sort to be stable, and for a
consistent comparator the ECMAScript specification determines the result
to be exactly this stable merge sort. -/
def rankProcesses (l : List ProcessWithTransaction) :
    List ProcessWithTransaction :=
  l.mergeSort jsLe

/-- For sufficient fuel, `mergeF` is `List.merge`. -/
theorem mergeF_eq_merge (le : α → α → Bool) :
    ∀ (n : Nat) (xs ys : List α), xs.length + ys.length ≤ n →
      mergeF le n xs ys = xs.merge ys le := by
  intro n
  induction n with
  | zero =>
    intro xs ys h
    have hx : xs = [] := List.length_eq_zero.1 (by omega)
    have hy : ys = [] := List.length_eq_zero.1 (by omega)
    subst hx; subst hy
    simp [mergeF, List.nil_merge]
  | succ n ih =>
    intro xs ys h
    match xs, ys with
    | [], ys => simp [mergeF, List.nil_merge]
    | x :: xs, [] => simp [mergeF, List.merge_right]
    | x :: xs, y :: ys =>
      rw [List.cons_merge_cons]
      by_cases hle : le x y
      · rw [show mergeF le (n + 1) (x :: xs) (y :: ys) =
            x :: mergeF le n xs (y :: ys) from by rw [mergeF, if_pos hle],
          if_pos hle]
        exact congrArg (x :: ·) (ih xs (y :: ys) (by simp at h ⊢; omega))
      · rw [show mergeF le (n + 1) (x :: xs) (y :: ys) =
            y :: mergeF le n (x :: xs) ys from by rw [mergeF, if_neg hle],
          if_neg hle]
        exact congrArg (y :: ·) (ih (x :: xs) ys (by simp at h ⊢; omega))

/-- `msF` preserves length. -/
theorem length_mergeF (le : α → α → Bool) :
    ∀ (n : Nat) (xs ys : List α),
      (mergeF le n xs ys).length = xs.length + ys.length := by
  intro n
  induction n with
  | zero => intro xs ys; simp [mergeF]
  | succ n ih =>
    intro xs ys
    match xs, ys with
    | [], ys => simp [mergeF]
    | x :: xs, [] => simp [mergeF]
    | x :: xs, y :: ys =>
      by_cases hle : le x y
      · rw [show mergeF le (n + 1) (x :: xs) (y :: ys) =
            x :: mergeF le n xs (y :: ys) from by rw [mergeF, if_pos hle]]
        simp [ih]; omega
      · rw [show mergeF le (n + 1) (x :: xs) (y :: ys) =
            y :: mergeF le n (x :: xs) ys from by rw [mergeF, if_neg hle]]
        simp [ih]; omega

/-- For sufficient fuel, `msF` is the stable `List.mergeSort`. -/
theorem msF_eq_mergeSort (le : α → α → Bool) :
    ∀ (n : Nat) (l : List α), l.length ≤ n → msF le n l = l.mergeSort le := by
  intro n
  induction n with
  | zero =>
    intro l h
    have hl : l = [] := List.length_eq_zero.1 (by omega)
    subst hl
    simp [msF]
  | succ n ih =>
    intro l h
    match l with
    | [] => simp [msF]
    | [a] => simp [msF]
    | a :: b :: xs =>
      have hlen : (a :: b :: xs).length = xs.length + 2 := by simp
      have hnot : ¬ (a :: b :: xs).length ≤ 1 := by simp
      rw [show msF le (n + 1) (a :: b :: xs) =
          mergeF le (a :: b :: xs).length
            (msF le n ((a :: b :: xs).take (((a :: b :: xs).length + 1) / 2)))
            (msF le n ((a :: b :: xs).drop (((a :: b :: xs).length + 1) / 2)))
          from by rw [msF, if_neg hnot]]
      have ht : ((a :: b :: xs).take (((a :: b :: xs).length + 1) / 2)).length ≤ n := by
        simp; omega
      have hd : ((a :: b :: xs).drop (((a :: b :: xs).length + 1) / 2)).length ≤ n := by
        simp; omega
      rw [ih _ ht, ih _ hd,
        mergeF_eq_merge le _ _ _ (by simp only [List.length_mergeSort]; simp; omega)]
      rw [List.mergeSort]
      simp only [List.splitInTwo_fst, List.splitInTwo_snd, List.length_cons]

/-! ### C6: the Correlator is a one-to-one, order-preserving join -/

/-- C6: for every session-descriptor list and every mapping, the Correlator
returns a list of the same length, and the element at each position is the
descriptor at that position together with the mapping's entry for its id
(present entries attached, absent ones `none`).  The embedding is a pure
function, so inputs are unchanged and no error can be raised. -/
theorem correlator_pointwise (ps : List Process)
    (m : List (Option Int × TransactionInfo)) :
    (correlate ps m).length = ps.length ∧
    ∀ (i : Nat) (h1 : i < (correlate ps m).length) (h2 : i < ps.length),
      (correlate ps m).get ⟨i, h1⟩ =
        { toProcess := ps.get ⟨i, h2⟩,
          transaction := List.lookup (some (ps.get ⟨i, h2⟩).Id) m } := by
  refine ⟨List.length_map _ _, ?_⟩
  intro i h1 h2
  simp [correlate, List.get_eq_getElem, List.getElem_map]

/-- A concrete session descriptor used in witnesses. -/
def procOne : Process :=
  { Id := 7, User := "root", Host := "localhost", db := none,
    Command := "Query", Time := 3, State := "running",
    Info := "select 1", Progress := 0 }

/-- Witness for `correlator_pointwise` on a one-element process list and
the empty mapping. -/
theorem correlator_pointwise_witness :
    (correlate [procOne] []).get ⟨0, by decide⟩ =
      { toProcess := [procOne].get ⟨0, by decide⟩,
        transaction := List.lookup (some (([procOne].get ⟨0, by decide⟩).Id)) [] } :=
  (correlator_pointwise [procOne] []).2 0 (by decide) (by decide)

/-! ### C10: correlation and ranking preserve every descriptor field -/

/-- C10: each Correlator output element carries the whole input descriptor
unchanged (all nine fields, via `toProcess`), only `transaction` is added;
and the Ranker merely permutes the correlated elements, so no field is
dropped or altered by ranking either. -/
theorem correlate_rank_frame (ps : List Process)
    (m : List (Option Int × TransactionInfo)) :
    (∀ (i : Nat) (h1 : i < (correlate ps m).length) (h2 : i < ps.length),
      ((correlate ps m).get ⟨i, h1⟩).toProcess = ps.get ⟨i, h2⟩) ∧
    (rankProcesses (correlate ps m)).Perm (correlate ps m) := by
  refine ⟨?_, List.mergeSort_perm _ _⟩
  intro i h1 h2
  simp [correlate, List.get_eq_getElem, List.getElem_map]

/-- Witness for `correlate_rank_frame` on a one-element process list. -/
theorem correlate_rank_frame_witness :
    ((correlate [procOne] []).get ⟨0, by decide⟩).toProcess =
      [procOne].get ⟨0, by decide⟩ :=
  (correlate_rank_frame [procOne] []).1 0 (by decide) (by decide)

/-! ### C4: transactions sort before sessions without -/

/-- Does an enriched session carry a transaction? -/
def withTx (x : ProcessWithTransaction) : Bool := x.transaction.isSome

/-- A list consisting of sessions with transactions followed by sessions
without. -/
def Shaped (l : List ProcessWithTransaction) : Prop :=
  ∃ w u, l = w ++ u ∧ (∀ x ∈ w, withTx x = true) ∧ (∀ x ∈ u, withTx x = false)

theorem shaped_of_all_not {l : List ProcessWithTransaction}
    (h : ∀ x ∈ l, withTx x = false) : Shaped l :=
  ⟨[], l, rfl, by simp, h⟩

theorem shaped_cons_tx {x : ProcessWithTransaction}
    {l : List ProcessWithTransaction} (hx : withTx x = true) (hl : Shaped l) :
    Shaped (x :: l) := by
  obtain ⟨w, u, rfl, hw, hu⟩ := hl
  exact ⟨x :: w, u, rfl, by
    intro y hy
    rcases List.mem_cons.1 hy with rfl | hy
    · exact hx
    · exact hw y hy, hu⟩

theorem shaped_tail {x : ProcessWithTransaction}
    {l : List ProcessWithTransaction} (h : Shaped (x :: l)) : Shaped l := by
  obtain ⟨w, u, heq, hw, hu⟩ := h
  match w, heq with
  | [], heq =>
    cases heq
    exact shaped_of_all_not (fun y hy => hu y (List.mem_cons_of_mem _ hy))
  | w0 :: w, heq =>
    rw [List.cons_append] at heq
    cases heq
    exact ⟨w, u, rfl, fun y hy => hw y (List.mem_cons_of_mem _ hy), hu⟩

theorem shaped_head_not {x : ProcessWithTransaction}
    {l : List ProcessWithTransaction} (h : Shaped (x :: l))
    (hx : withTx x = false) : ∀ y ∈ x :: l, withTx y = false := by
  obtain ⟨w, u, heq, hw, hu⟩ := h
  match w, heq with
  | [], heq =>
    cases heq
    exact hu
  | w0 :: w, heq =>
    rw [List.cons_append] at heq
    cases heq
    exact absurd (hw _ (List.mem_cons_self _ _)) (by simp [hx])

/-- An element with a transaction compares (non-strictly) before one
without. -/
theorem jsLe_tx_left {a b : ProcessWithTransaction}
    (ha : withTx a = true) (hb : withTx b = false) : jsLe a b = true := by
  rcases hA : a.transaction with _ | ta
  · rw [withTx, hA] at ha; exact absurd ha (by simp)
  · rcases hB : b.transaction with _ | tb
    · simp [jsLe, jsCompare, hA, hB]
    · rw [withTx, hB] at hb; exact absurd hb (by simp)

/-- An element without a transaction never compares before one with. -/
theorem jsLe_tx_right {a b : ProcessWithTransaction}
    (ha : withTx a = false) (hb : withTx b = true) : jsLe a b = false := by
  rcases hA : a.transaction with _ | ta
  · rcases hB : b.transaction with _ | tb
    · rw [withTx, hB] at hb; exact absurd hb (by simp)
    · simp [jsLe, jsCompare, hA, hB]
  · rw [withTx, hA] at ha; exact absurd ha (by simp)

/-- Elements of a fuel merge come from one of the inputs. -/
theorem mem_mergeF (le : α → α → Bool) :
    ∀ (n : Nat) (xs ys : List α) (x : α),
      x ∈ mergeF le n xs ys → x ∈ xs ∨ x ∈ ys := by
  intro n
  induction n with
  | zero => intro xs ys x h; exact (List.mem_append.1 h)
  | succ n ih =>
    intro xs ys x h
    match xs, ys with
    | [], ys => exact Or.inr h
    | x0 :: xs, [] => exact Or.inl h
    | x0 :: xs, y0 :: ys =>
      by_cases hle : le x0 y0
      · rw [show mergeF le (n + 1) (x0 :: xs) (y0 :: ys) =
            x0 :: mergeF le n xs (y0 :: ys) from by rw [mergeF, if_pos hle]] at h
        rcases List.mem_cons.1 h with rfl | h
        · exact Or.inl (List.mem_cons_self _ _)
        · rcases ih xs (y0 :: ys) x h with h | h
          · exact Or.inl (List.mem_cons_of_mem _ h)
          · exact Or.inr h
      · rw [show mergeF le (n + 1) (x0 :: xs) (y0 :: ys) =
            y0 :: mergeF le n (x0 :: xs) ys from by rw [mergeF, if_neg hle]] at h
        rcases List.mem_cons.1 h with rfl | h
        · exact Or.inr (List.mem_cons_self _ _)
        · rcases ih (x0 :: xs) ys x h with h | h
          · exact Or.inl h
          · exact Or.inr (List.mem_cons_of_mem _ h)

/-- Merging two shaped lists with the source's comparator yields a shaped
list: transactions can never end up after a transactionless session. -/
theorem mergeF_shaped :
    ∀ (n : Nat) (xs ys : List ProcessWithTransaction),
      xs.length + ys.length ≤ n → Shaped xs → Shaped ys →
      Shaped (mergeF jsLe n xs ys) := by
  intro n
  induction n with
  | zero =>
    intro xs ys h _ _
    have hx : xs = [] := List.length_eq_zero.1 (by omega)
    have hy : ys = [] := List.length_eq_zero.1 (by omega)
    subst hx; subst hy
    exact shaped_of_all_not (by simp [mergeF])
  | succ n ih =>
    intro xs ys h hsx hsy
    match xs, ys with
    | [], ys => exact hsy
    | x :: xs, [] => exact hsx
    | x :: xs, y :: ys =>
      by_cases hle : jsLe x y
      · rw [show mergeF jsLe (n + 1) (x :: xs) (y :: ys) =
            x :: mergeF jsLe n xs (y :: ys) from by rw [mergeF, if_pos hle]]
        by_cases hx : withTx x
        · exact shaped_cons_tx hx
            (ih xs (y :: ys) (by simp at h ⊢; omega) (shaped_tail hsx) hsy)
        · have hx' : withTx x = false := by simpa using hx
          have hy' : withTx y = false := by
            by_cases hy : withTx y
            · exact absurd hle (by rw [jsLe_tx_right hx' hy]; simp)
            · simpa using hy
          refine shaped_of_all_not ?_
          intro z hz
          rcases List.mem_cons.1 hz with rfl | hz
          · exact hx'
          · rcases mem_mergeF jsLe n xs (y :: ys) z hz with hz | hz
            · exact shaped_head_not hsx hx' z (List.mem_cons_of_mem _ hz)
            · exact shaped_head_not hsy hy' z hz
      · rw [show mergeF jsLe (n + 1) (x :: xs) (y :: ys) =
            y :: mergeF jsLe n (x :: xs) ys from by rw [mergeF, if_neg hle]]
        by_cases hy : withTx y
        · exact shaped_cons_tx hy
            (ih (x :: xs) ys (by simp at h ⊢; omega) hsx (shaped_tail hsy))
        · have hy' : withTx y = false := by simpa using hy
          have hx' : withTx x = false := by
            by_cases hx : withTx x
            · exact absurd (jsLe_tx_left hx hy') (by simpa using hle)
            · simpa using hx
          refine shaped_of_all_not ?_
          intro z hz
          rcases List.mem_cons.1 hz with rfl | hz
          · exact hy'
          · rcases mem_mergeF jsLe n (x :: xs) ys z hz with hz | hz
            · exact shaped_head_not hsx hx' z hz
            · exact shaped_head_not hsy hy' z (List.mem_cons_of_mem _ hz)

/-- `msF` preserves length. -/
theorem length_msF (le : α → α → Bool) :
    ∀ (n : Nat) (l : List α), (msF le n l).length = l.length := by
  intro n
  induction n with
  | zero => intro l; rfl
  | succ n ih =>
    intro l
    by_cases hl : l.length ≤ 1
    · rw [show msF le (n + 1) l = l from by rw [msF, if_pos hl]]
    · rw [show msF le (n + 1) l =
          mergeF le l.length
            (msF le n (l.take ((l.length + 1) / 2)))
            (msF le n (l.drop ((l.length + 1) / 2)))
          from by rw [msF, if_neg hl]]
      rw [length_mergeF, ih, ih, List.length_take, List.length_drop]
      omega

/-- The fuel merge sort of any list of enriched sessions is shaped. -/
theorem msF_shaped :
    ∀ (n : Nat) (l : List ProcessWithTransaction), l.length ≤ n →
      Shaped (msF jsLe n l) := by
  intro n
  induction n with
  | zero =>
    intro l h
    have hl : l = [] := List.length_eq_zero.1 (by omega)
    subst hl
    exact shaped_of_all_not (by simp [msF])
  | succ n ih =>
    intro l h
    by_cases hl : l.length ≤ 1
    · rw [show msF jsLe (n + 1) l = l from by rw [msF, if_pos hl]]
      match l, hl with
      | [], _ => exact shaped_of_all_not (by simp)
      | [a], _ =>
        by_cases ha : withTx a
        · exact shaped_cons_tx ha (shaped_of_all_not (by simp))
        · exact shaped_of_all_not (by
            intro y hy
            rcases List.mem_cons.1 hy with rfl | hy
            · simpa using ha
            · exact absurd hy (by simp))
    · rw [show msF jsLe (n + 1) l =
          mergeF jsLe l.length
            (msF jsLe n (l.take ((l.length + 1) / 2)))
            (msF jsLe n (l.drop ((l.length + 1) / 2)))
          from by rw [msF, if_neg hl]]
      refine mergeF_shaped l.length _ _ ?_
        (ih _ (by simp; omega)) (ih _ (by simp; omega))
      rw [length_msF, length_msF, List.length_take, List.length_drop]
      omega

/-- C4: in the Ranker's output, every enriched session with an attached
transaction precedes every one without: pairwise along the output, an
element whose `transaction` is `none` is never followed by one whose
`transaction` is present. -/
theorem ranker_partition (l : List ProcessWithTransaction) :
    (rankProcesses l).Pairwise
      (fun a b => a.transaction = none → b.transaction = none) := by
  rw [rankProcesses, ← msF_eq_mergeSort jsLe l.length l (Nat.le_refl _)]
  obtain ⟨w, u, heq, hw, hu⟩ := msF_shaped l.length l (Nat.le_refl _)
  rw [heq, List.pairwise_append]
  refine ⟨?_, ?_, ?_⟩
  · refine List.pairwise_of_forall_mem_list ?_
    intro a ha b hb hnone
    have := hw a ha
    rw [withTx, hnone] at this
    exact absurd this (by simp)
  · refine List.pairwise_of_forall_mem_list ?_
    intro a _ b hb _
    have := hu b hb
    rw [withTx] at this
    exact Option.not_isSome_iff_eq_none.1 (by simp [this])
  · intro a ha b hb hnone
    have := hw a ha
    rw [withTx, hnone] at this
    exact absurd this (by simp)

/-! ### C5: stability of the ranking -/

/-- An enriched session whose comparator key is a real number: its attached
transaction (if any) has a numeric, non-`NaN` `activeTime`.  On such
elements the comparator is consistent. -/
def numericTx (x : ProcessWithTransaction) : Bool :=
  match x.transaction with
  | some t => t.activeTime.isSome
  | none => true

/-- Equality of comparator keys in the sense of the claim: both with
transactions and equal `activeSeconds`, or both without and equal
`elapsedSeconds` (`Time`). -/
def sameKey (a b : ProcessWithTransaction) : Bool :=
  match a.transaction, b.transaction with
  | some ta, some tb => ta.activeTime == tb.activeTime
  | none, none => a.Time == b.Time
  | _, _ => false

/-- A numeric-keyed session with a transaction has a `some` `activeTime`. -/
theorem numericTx_some {x : ProcessWithTransaction} {t : TransactionInfo}
    (hx : x.transaction = some t) (h : numericTx x = true) :
    ∃ v, t.activeTime = some v := by
  unfold numericTx at h
  rw [hx] at h
  exact Option.isSome_iff_exists.1 h

/-- The comparator relation is total (even across `NaN` keys). -/
theorem jsLe_total (a b : ProcessWithTransaction) :
    (jsLe a b || jsLe b a) = true := by
  rcases hA : a.transaction with _ | ta <;> rcases hB : b.transaction with _ | tb
  · simp only [jsLe, jsCompare, hA, hB, Bool.or_eq_true, decide_eq_true_eq]
    omega
  · simp [jsLe, jsCompare, hA, hB]
  · simp [jsLe, jsCompare, hA, hB]
  · rcases hx : ta.activeTime with _ | x <;> rcases hy : tb.activeTime with _ | y <;>
      simp only [jsLe, jsCompare, hA, hB, hx, hy, Bool.or_eq_true,
        decide_eq_true_eq] <;> omega

/-- On numeric keys the comparator relation is transitive. -/
theorem jsLe_trans_numeric {a b c : ProcessWithTransaction}
    (ha : numericTx a = true) (hb : numericTx b = true)
    (hc : numericTx c = true) (h1 : jsLe a b = true) (h2 : jsLe b c = true) :
    jsLe a c = true := by
  rcases hA : a.transaction with _ | ta <;> rcases hB : b.transaction with _ | tb <;>
    rcases hC : c.transaction with _ | tc <;>
    simp only [jsLe, jsCompare, hA, hB, hC, decide_eq_true_eq] at h1 h2 ⊢
  · omega
  · exact absurd h2 (by omega)
  · exact absurd h1 (by omega)
  · exact absurd h1 (by omega)
  · omega
  · exact absurd h2 (by omega)
  · omega
  · obtain ⟨x, hx⟩ := numericTx_some hA ha
    obtain ⟨y, hy⟩ := numericTx_some hB hb
    obtain ⟨z, hz⟩ := numericTx_some hC hc
    rw [hx, hy] at h1
    rw [hy, hz] at h2
    rw [hx, hz]
    have h1' : y - x ≤ 0 := h1
    have h2' : z - y ≤ 0 := h2
    show z - x ≤ 0
    omega

/-- Elements with equal comparator keys compare equal both ways. -/
theorem sameKey_le {a b : ProcessWithTransaction} (h : sameKey a b = true) :
    jsLe a b = true ∧ jsLe b a = true := by
  rcases hA : a.transaction with _ | ta <;> rcases hB : b.transaction with _ | tb <;>
    simp only [sameKey, hA, hB, beq_iff_eq] at h
  · constructor <;> simp only [jsLe, jsCompare, hA, hB, decide_eq_true_eq] <;> omega
  · exact absurd h (by simp)
  · exact absurd h (by simp)
  · rcases hx : ta.activeTime with _ | x
    · rw [hx] at h
      constructor <;>
        simp only [jsLe, jsCompare, hA, hB, hx, h.symm, decide_eq_true_eq] <;>
        omega
    · rw [hx] at h
      constructor <;>
        simp only [jsLe, jsCompare, hA, hB, hx, h.symm, decide_eq_true_eq] <;>
        omega

/-- A session enriched with a transaction of the given `activeTime`; used
in the stability counterexample and witnesses. -/
def txSession (id : Int) (t : Option Int) : ProcessWithTransaction :=
  { Id := id, User := "root", Host := "localhost", db := none,
    Command := "Query", Time := 0, State := "running", Info := "select 1",
    Progress := 0, transaction := some { activeTime := t, info := [] } }

/-- A session with no transaction attached. -/
def plainSession (id : Int) (time : Int) : ProcessWithTransaction :=
  { Id := id, User := "root", Host := "localhost", db := none,
    Command := "Sleep", Time := time, State := "idle", Info := "",
    Progress := 0, transaction := none }

/-- Input list for the stability counterexample: two `NaN`-keyed
transactions make the comparator inconsistent, letting the tied pair with
ids 100 and 200 (both `activeSeconds` 5) swap. -/
def stabilityList : List ProcessWithTransaction :=
  [txSession 1 (some 1), txSession 2 none, txSession 3 none,
   txSession 100 (some 5), txSession 200 (some 5),
   plainSession 4 30, plainSession 5 20, plainSession 6 10]

/-- C5 counterexample: in `stabilityList` the sessions with ids 100 and 200
both carry transactions with `activeSeconds` 5 (equal comparator keys) and
appear in this order, yet the Ranker's output has 200 before 100: the
`NaN` `activeTime`s of ids 2 and 3 make the comparator inconsistent, and
the sort is then not stable on the tied pair. -/
theorem ranker_stability_ce :
    sameKey (txSession 100 (some 5)) (txSession 200 (some 5)) = true ∧
    List.Sublist [txSession 100 (some 5), txSession 200 (some 5)]
      stabilityList ∧
    ¬ List.Sublist [txSession 100 (some 5), txSession 200 (some 5)]
        (rankProcesses stabilityList) := by
  refine ⟨by decide, by decide, ?_⟩
  rw [rankProcesses,
    ← msF_eq_mergeSort jsLe stabilityList.length stabilityList (Nat.le_refl _)]
  decide

/-- Sessions whose comparator key is numeric, as a subtype on which the
comparator is globally consistent. -/
def NumericSession : Type := {x : ProcessWithTransaction // numericTx x = true}

/-- The comparator relation on numeric sessions. -/
def numLe (a b : NumericSession) : Bool := jsLe a.val b.val

/-- Attach the numeric-key proofs to the elements of a list. -/
def attachNum : (l : List ProcessWithTransaction) →
    (∀ x ∈ l, numericTx x = true) → List NumericSession
  | [], _ => []
  | x :: xs, H =>
    ⟨x, H x (List.mem_cons_self x xs)⟩ ::
      attachNum xs (fun y hy => H y (List.mem_cons_of_mem x hy))

theorem attachNum_map_val :
    ∀ (l : List ProcessWithTransaction) (H : ∀ x ∈ l, numericTx x = true),
      (attachNum l H).map Subtype.val = l := by
  intro l
  induction l with
  | nil => intro H; rfl
  | cons x xs ih => intro H; simp only [attachNum, List.map_cons, ih]

theorem attachNum_sublist :
    ∀ {c l : List ProcessWithTransaction} (_ : c.Sublist l)
      (H : ∀ x ∈ l, numericTx x = true) (Hc : ∀ x ∈ c, numericTx x = true),
      (attachNum c Hc).Sublist (attachNum l H) := by
  intro c l hs
  induction hs with
  | slnil => intro H Hc; exact List.Sublist.refl _
  | cons a hs ih => intro H Hc; exact List.Sublist.cons _ (ih _ Hc)
  | cons₂ a hs ih => intro H Hc; exact List.Sublist.cons₂ _ (ih _ _)

/-- C5 amended: the Ranker is stable on every list whose comparator keys
are all numeric (no `NaN` `activeTime`): a pair with equal comparator keys
keeps its input order in the output. -/
theorem ranker_stable_numeric (l : List ProcessWithTransaction)
    (hok : ∀ x ∈ l, numericTx x = true) (a b : ProcessWithTransaction)
    (hk : sameKey a b = true) (hs : List.Sublist [a, b] l) :
    List.Sublist [a, b] (rankProcesses l) := by
  have hca : ∀ x ∈ [a, b], numericTx x = true := fun x hx => hok x (hs.subset hx)
  have hsub := attachNum_sublist hs hok hca
  have htrans : ∀ (x y z : NumericSession),
      numLe x y = true → numLe y z = true → numLe x z = true :=
    fun x y z h1 h2 => jsLe_trans_numeric x.2 y.2 z.2 h1 h2
  have htotal : ∀ (x y : NumericSession), (numLe x y || numLe y x) = true :=
    fun x y => jsLe_total x.val y.val
  have hpw : (attachNum [a, b] hca).Pairwise (fun x y => numLe x y = true) := by
    refine List.pairwise_cons.2 ⟨?_, List.pairwise_cons.2 ⟨?_, List.Pairwise.nil⟩⟩
    · intro y hy
      have hy' : y = ⟨b, hca b (by simp)⟩ := by
        rcases List.mem_cons.1 hy with h | h
        · exact h
        · exact absurd h (List.not_mem_nil y)
      rw [hy']
      exact (sameKey_le hk).1
    · intro y hy
      exact absurd hy (List.not_mem_nil y)
  have hstable := List.sublist_mergeSort htrans htotal hpw hsub
  have hmap := hstable.map Subtype.val
  rw [@List.map_mergeSort NumericSession ProcessWithTransaction numLe jsLe
      Subtype.val (attachNum l hok) (fun x _ y _ => rfl),
    attachNum_map_val, attachNum_map_val] at hmap
  rw [rankProcesses]
  exact hmap

/-- Witness for `ranker_stable_numeric` on a two-element all-numeric
list. -/
theorem ranker_stable_numeric_witness :
    List.Sublist [txSession 100 (some 5), txSession 200 (some 5)]
      (rankProcesses [txSession 100 (some 5), txSession 200 (some 5)]) :=
  ranker_stable_numeric
    [txSession 100 (some 5), txSession 200 (some 5)] (by decide)
    (txSession 100 (some 5)) (txSession 200 (some 5)) (by decide) (by decide)

end MysqlAdminWeb
